import Mathlib

/-!
# Verification of the contact-manager address book (`src/main.py`)

A shallow embedding of the address-book data model of the Python program:
field validators (`Phone`, `Birthday`), `Record`, `AddressBook`, the
birthday-window query, and the `add_birthday` command handler together with
the `input_error` decorator.

Conventions of the embedding:
* Python strings are Lean `String`s.  The program's regular-expression and
  `str.lower` operations are modelled on the ASCII fragment (Python's `\d`
  and `lower` additionally know non-ASCII Unicode characters; every claim
  and counterexample below stays inside ASCII).
* Python exceptions are explicit: a constructor that can `raise` returns
  `Except PyErr _`; a mutating method that can raise returns the error
  alongside the state at the raise point (`Option PyErr × _`).
* `datetime` values are modelled by `Date` (proleptic Gregorian calendar,
  as CPython's `datetime` implements); `datetime.now()` is a parameter.
-/

namespace ContactBook

/-- The Python exception kinds distinguished by `input_error` in `main.py`. -/
inductive PyErr where
  | keyError
  | valueError
  | indexError
deriving DecidableEq

/-- ASCII decimal digit: the ASCII fragment of Python's regex class `\d`. -/
def pyIsDigit (c : Char) : Bool :=
  '0' ≤ c && c ≤ '9'

/-- ASCII fragment of Python's `str.lower` on a single character. -/
def pyLowerChar (c : Char) : Char :=
  if 'A' ≤ c && c ≤ 'Z' then Char.ofNat (c.toNat + 32) else c

/-- ASCII fragment of Python's `str.lower`. -/
def pyLower (s : String) : String :=
  ⟨s.data.map pyLowerChar⟩

/-- Python string slicing `s[0:n]`. -/
def strTake (s : String) (n : Nat) : String :=
  ⟨s.data.take n⟩

/-- Numeric value of a digit string, as Python's `int()` computes it. -/
def toNatDigits (l : List Char) : Nat :=
  l.foldl (fun n c => 10 * n + (c.toNat - 48)) 0

/-- Python's `int()` applied to a captured `strptime` group: `int()`
ignores leading whitespace, which matters for the space-padded day group
`" [1-9]"` (no other whitespace can reach it here). -/
def pyInt (l : List Char) : Nat :=
  toNatDigits (l.dropWhile (fun c => c = ' '))

/-!
## Phone validation (`Phone.validate_phone`, `main.py` lines 15–22)

`re.match(r'^\d{10}$', s)`: ten `\d` characters starting at position 0,
then `$`.  In Python (no `re.MULTILINE`), `$` matches at the end of the
string *or just before a newline at the end of the string*, so the pattern
also accepts ten digits followed by one final `'\n'`.
-/

/-- `Phone.validate_phone`: model of `bool(re.match(r'^\d{10}$', s))`. -/
def validate_phone (s : String) : Bool :=
  let cs := s.data
  (cs.take 10).length = 10 && (cs.take 10).all pyIsDigit &&
    (decide (cs.drop 10 = []) || decide (cs.drop 10 = ['\n']))

/-- `Phone.__init__`: raises `ValueError` when validation fails, otherwise
stores the string unchanged (so `str(Phone(s)) = s`). -/
def Phone.init (s : String) : Except PyErr String :=
  if validate_phone s then .ok s else .error .valueError

/-!
## Birthday validation (`Birthday.__init__`, `main.py` lines 24–30)

`datetime.strptime(value, "%d.%m.%Y")`.  CPython's `_strptime` compiles the
format to the regex
`(3[0-1]|[1-2]\d|0[1-9]|[1-9]| [1-9])\.(1[0-2]|0[1-9]|[1-9])\.(\d\d\d\d)`
matched from position 0 with the whole input consumed, then converts each
group with `int()` and calls `datetime(year, month, day)`, which checks
`1 <= year` and that the day exists in that month of the proleptic
Gregorian calendar.  Note `%d` and `%m` accept *unpadded* one-digit
values, and `%d` additionally accepts a *space-padded* day `" [1-9]"`.
Because no group may contain a dot and the separators are literal dots,
the regex match is equivalent to splitting the input at every `'.'` and
checking the three groups.
-/

/-- Split a character list at every `'.'` (the groups never contain a dot). -/
def splitDots : List Char → List (List Char)
  | [] => [[]]
  | c :: cs =>
    if c = '.' then [] :: splitDots cs
    else match splitDots cs with
      | [] => [[c]]
      | g :: gs => (c :: g) :: gs

/-- The `%d` group of `_strptime`: `3[0-1]|[1-2]\d|0[1-9]|[1-9]| [1-9]`
(the last alternative is CPython's space-padded day). -/
def dayGroup : List Char → Bool
  | [c] => '1' ≤ c && c ≤ '9'
  | [c₁, c₂] =>
    (c₁ = '3' && (c₂ = '0' || c₂ = '1')) ||
    ((c₁ = '1' || c₁ = '2') && pyIsDigit c₂) ||
    (c₁ = '0' && '1' ≤ c₂ && c₂ ≤ '9') ||
    (c₁ = ' ' && '1' ≤ c₂ && c₂ ≤ '9')
  | _ => false

/-- The `%m` group of `_strptime`: `1[0-2]|0[1-9]|[1-9]`. -/
def monthGroup : List Char → Bool
  | [c] => '1' ≤ c && c ≤ '9'
  | [c₁, c₂] =>
    (c₁ = '1' && (c₂ = '0' || c₂ = '1' || c₂ = '2')) ||
    (c₁ = '0' && '1' ≤ c₂ && c₂ ≤ '9')
  | _ => false

/-- The `%Y` group of `_strptime`: `\d\d\d\d`, exactly four digits. -/
def yearGroup (g : List Char) : Bool :=
  g.length = 4 && g.all pyIsDigit

/-- Leap year as CPython's `datetime` (proleptic Gregorian) decides it. -/
def isLeap (y : Nat) : Bool :=
  y % 4 = 0 && (y % 100 ≠ 0 || y % 400 = 0)

/-- Days in a month of the proleptic Gregorian calendar. -/
def daysInMonth (y m : Nat) : Nat :=
  if m = 2 then (if isLeap y then 29 else 28)
  else if m = 4 ∨ m = 6 ∨ m = 9 ∨ m = 11 then 30
  else 31

/-- Model of `datetime.strptime(s, "%d.%m.%Y")` followed by the calendar
check of the `datetime` constructor; returns `(day, month, year)`. -/
def strptimeDMY (s : String) : Option (Nat × Nat × Nat) :=
  match splitDots s.data with
  | [a, b, c] =>
    if dayGroup a && monthGroup b && yearGroup c then
      if 1 ≤ pyInt c ∧ pyInt a ≤ daysInMonth (pyInt c) (pyInt b)
      then some (pyInt a, pyInt b, pyInt c)
      else none
    else none
  | _ => none

/-- `Birthday.__init__`: raises `ValueError` when `strptime` fails, and
stores the original string unchanged. -/
def Birthday.init (s : String) : Except PyErr String :=
  match strptimeDMY s with
  | some _ => .ok s
  | none => .error .valueError

/-!
## Record (`main.py` lines 32–61)

A `Record` owns a name, a list of phone values (the `.value` strings of
the `Phone` objects), and an optional birthday string.
-/

structure Record where
  name : String
  phones : List String
  birthday : Option String
deriving DecidableEq

namespace Record

/-- `Record.__init__(name)`. -/
def init (name : String) : Record :=
  ⟨name, [], none⟩

/-- `Record.add_phone`: `Phone(phone)` is evaluated before the append, so
on a `ValueError` the record is returned unchanged. -/
def add_phone (r : Record) (s : String) : Option PyErr × Record :=
  match Phone.init s with
  | .ok p => (none, { r with phones := r.phones ++ [p] })
  | .error e => (some e, r)

/-- `Record.remove_phone`: keeps the phones whose value differs from `s`
(case-sensitive equality). -/
def remove_phone (r : Record) (s : String) : Record :=
  { r with phones := r.phones.filter (fun p => decide (¬ p = s)) }

/-- `Record.edit_phone`: overwrites, without validation, the value of every
phone matching `old` case-insensitively. -/
def edit_phone (r : Record) (old new : String) : Record :=
  { r with phones := r.phones.map (fun p => if pyLower p = pyLower old then new else p) }

/-- `Record.find_phone`: first phone matching `s` case-insensitively. -/
def find_phone (r : Record) (s : String) : Option String :=
  r.phones.find? (fun p => decide (pyLower p = pyLower s))

/-- `Record.add_birthday`: `Birthday(birthday)` is evaluated before the
assignment, so on a `ValueError` the record is returned unchanged. -/
def add_birthday (r : Record) (s : String) : Option PyErr × Record :=
  match Birthday.init s with
  | .ok b => (none, { r with birthday := some b })
  | .error e => (some e, r)

end Record

/-!
## AddressBook (`main.py` lines 63–83)

`UserDict` keeps `self.data`, a `dict` from name string to `Record`.  A
Python `dict` iterates in insertion order and an assignment to an existing
key keeps its position, which the association-list model reproduces.
-/

structure AddressBook where
  data : List (String × Record)
deriving DecidableEq

namespace AddressBook

/-- The empty book (`AddressBook()`). -/
def empty : AddressBook := ⟨[]⟩

/-- `dict` assignment `data[k] = v`: overwrite in place, else append. -/
def dictSet (d : List (String × Record)) (k : String) (v : Record) :
    List (String × Record) :=
  if d.any (fun e => decide (e.1 = k)) then
    d.map (fun e => if e.1 = k then (k, v) else e)
  else d ++ [(k, v)]

/-- `AddressBook.add_record`: `self.data[record.name.value] = record`. -/
def add_record (b : AddressBook) (r : Record) : AddressBook :=
  ⟨dictSet b.data r.name r⟩

/-- `AddressBook.find`: `self.data.get(name)`. -/
def find (b : AddressBook) (n : String) : Option Record :=
  (b.data.find? (fun e => decide (e.1 = n))).map Prod.snd

/-- `name in self.data`. -/
def contains (b : AddressBook) (n : String) : Bool :=
  b.data.any (fun e => decide (e.1 = n))

/-- `AddressBook.delete`: `if name in self.data: del self.data[name]`. -/
def delete (b : AddressBook) (n : String) : AddressBook :=
  if b.contains n then ⟨b.data.filter (fun e => decide (¬ e.1 = n))⟩ else b

/-- The values of the mapping in iteration (= insertion) order. -/
def values (b : AddressBook) : List Record :=
  b.data.map Prod.snd

/-- In-place mutation of the record aliased by `self.data[n]` (e.g.
`address_book[name].add_birthday(...)` seen through the book). -/
def updateRecord (b : AddressBook) (n : String) (f : Record → Record) : AddressBook :=
  ⟨b.data.map (fun e => if e.1 = n then (e.1, f e.2) else e)⟩

end AddressBook

/-!
## Dates (`datetime.now() + timedelta(days=i)` and `strftime("%d.%m")`)
-/

structure Date where
  year : Nat
  month : Nat
  day : Nat
deriving DecidableEq

/-- A calendar date `datetime` could hold (time-of-day is irrelevant to
`strftime("%d.%m")` and whole-day `timedelta`s). -/
def Date.Valid (d : Date) : Prop :=
  1 ≤ d.month ∧ d.month ≤ 12 ∧ 1 ≤ d.day ∧ d.day ≤ daysInMonth d.year d.month

instance (d : Date) : Decidable d.Valid := by
  unfold Date.Valid; infer_instance

/-- The calendar successor of a date. -/
def nextDay (d : Date) : Date :=
  if d.day < daysInMonth d.year d.month then ⟨d.year, d.month, d.day + 1⟩
  else if d.month < 12 then ⟨d.year, d.month + 1, 1⟩
  else ⟨d.year + 1, 1, 1⟩

/-- `d + timedelta(days=k)`. -/
def addDays (d : Date) : Nat → Date
  | 0 => d
  | k + 1 => nextDay (addDays d k)

/-- The decimal digit character for `n % 10`-sized values. -/
def digitChar : Nat → Char
  | 0 => '0' | 1 => '1' | 2 => '2' | 3 => '3' | 4 => '4'
  | 5 => '5' | 6 => '6' | 7 => '7' | 8 => '8' | _ => '9'

/-- `strftime("%d.%m")`: zero-padded two-digit day and month. -/
def fmtDDMM (d : Date) : String :=
  ⟨[digitChar (d.day / 10), digitChar (d.day % 10), '.',
    digitChar (d.month / 10), digitChar (d.month % 10)]⟩

/-!
## The birthday window (`AddressBook.get_upcoming_birthdays`, lines 74–83)

`datetime.now()` is passed in as `today`.
-/

namespace AddressBook

/-- `[(today + timedelta(days=i)).strftime("%d.%m") for i in range(1, 8)]`. -/
def upcomingDates (today : Date) : List String :=
  (List.range' 1 7).map (fun i => fmtDDMM (addDays today i))

/-- `AddressBook.get_upcoming_birthdays` with `datetime.now()` as `today`:
keeps, in iteration order, the records with a birthday whose first five
characters (`record.birthday.value[0:5]`) occur in `upcomingDates today`. -/
def get_upcoming_birthdays (b : AddressBook) (today : Date) : List Record :=
  (b.values).filter (fun r =>
    match r.birthday with
    | none => false
    | some bd => decide (strTake bd 5 ∈ upcomingDates today))

end AddressBook

/-!
## The `add_birthday` handler and `input_error` (`main.py` lines 85–95, 135–142)

The handler's printed message: `name, birthday = args` raises `ValueError`
unless `args` has exactly two elements; `Birthday(birthday)` raises
`ValueError` on a malformed date.  The record mutation itself is
`Record.add_birthday` above. -/

/-- The undecorated `add_birthday(args, address_book)` message. -/
def add_birthday_cmd (args : List String) (book : AddressBook) : Except PyErr String :=
  match args with
  | [name, birthday] =>
    if book.contains name then
      match Birthday.init birthday with
      | .ok _ => .ok ("Birthday added for " ++ name ++ ".")
      | .error e => .error e
    else .ok ("Contact " ++ name ++ " not found.")
  | _ => .error .valueError

/-- The `input_error` decorator: converts the three caught exception kinds
into user-facing messages. -/
def input_error_handle : Except PyErr String → String
  | .ok s => s
  | .error .keyError => "Enter valid user name."
  | .error .valueError => "Give me name and phone please."
  | .error .indexError => "Incomplete command. Please provide necessary arguments."

/-- `@input_error def add_birthday(...)` as dispatched by `main`. -/
def add_birthday_wrapped (args : List String) (book : AddressBook) : String :=
  input_error_handle (add_birthday_cmd args book)

/-!
# Theorems

## Helper lemmas
-/

theorem char_eq_of_toNat_eq {a b : Char} (h : a.toNat = b.toNat) : a = b :=
  Char.eq_of_val_eq (UInt32.toNat.inj h)

theorem pyIsDigit_iff {c : Char} : pyIsDigit c = true ↔ 48 ≤ c.toNat ∧ c.toNat ≤ 57 := by
  simp only [pyIsDigit, Bool.and_eq_true, decide_eq_true_eq, Char.le_def, UInt32.le_def]
  exact Iff.rfl

/-!
## C2: phone validation
-/

/-- Structural description of the strings accepted by `validate_phone`:
ten ASCII digits, optionally followed by one final newline. -/
theorem validate_phone_iff (s : String) :
    validate_phone s = true ↔
      ∃ ds : List Char, ds.length = 10 ∧ (∀ c ∈ ds, pyIsDigit c) ∧
        (s.data = ds ∨ s.data = ds ++ ['\n']) := by
  constructor
  · intro h
    simp only [validate_phone, Bool.and_eq_true, Bool.or_eq_true, decide_eq_true_eq,
      List.all_eq_true] at h
    obtain ⟨⟨hlen, hdig⟩, hrest⟩ := h
    refine ⟨s.data.take 10, by simpa using hlen, hdig, ?_⟩
    rcases hrest with h10 | h11
    · left
      conv_lhs => rw [← List.take_append_drop 10 s.data]
      rw [h10, List.append_nil]
    · right
      conv_lhs => rw [← List.take_append_drop 10 s.data]
      rw [h11]
  · rintro ⟨ds, hlen, hdig, hcase | hcase⟩ <;>
      simp only [validate_phone, Bool.and_eq_true, Bool.or_eq_true, decide_eq_true_eq,
        List.all_eq_true, hcase]
    · rw [List.take_of_length_le (by omega), List.drop_eq_nil_of_le (by omega)]
      exact ⟨⟨by omega, hdig⟩, Or.inl rfl⟩
    · rw [List.take_left' hlen, List.drop_left' hlen]
      exact ⟨⟨by omega, hdig⟩, Or.inr rfl⟩

/-- C2 (amended): on ASCII input, `Phone` construction succeeds iff the
string consists of exactly ten ASCII digit characters optionally followed
by one trailing newline character (Python's un-flagged `$` also matches
just before a final `'\n'`); on success the stored value stringifies back
to the input unchanged.  (Python's `\d` additionally accepts non-ASCII
Unicode decimal digits, outside the ASCII scope modelled here.) -/
theorem phone_construction_characterization (s : String)
    (_hascii : ∀ c ∈ s.data, c.toNat < 128) :
    ((∃ p, Phone.init s = .ok p) ↔
      ∃ ds : List Char, ds.length = 10 ∧ (∀ c ∈ ds, pyIsDigit c) ∧
        (s.data = ds ∨ s.data = ds ++ ['\n'])) ∧
    (∀ p, Phone.init s = .ok p → p = s) := by
  constructor
  · rw [← validate_phone_iff]
    unfold Phone.init
    constructor
    · rintro ⟨p, hp⟩
      by_cases h : validate_phone s
      · exact h
      · rw [if_neg h] at hp; cases hp
    · intro h
      exact ⟨s, by rw [if_pos h]⟩
  · intro p hp
    unfold Phone.init at hp
    by_cases h : validate_phone s
    · rw [if_pos h] at hp; cases hp; rfl
    · rw [if_neg h] at hp; cases hp

/-- Witness for the C2 theorem: the hypotheses hold at `"1234567890"`, and
the round-trip conclusion applies there. -/
theorem phone_construction_characterization_witness :
    (∀ c ∈ ("1234567890" : String).data, c.toNat < 128) ∧
    (∀ p, Phone.init "1234567890" = .ok p → p = "1234567890") :=
  ⟨by decide, (phone_construction_characterization "1234567890" (by decide)).2⟩

/-- C2 counterexample: `"1234567890\n"` does not consist of exactly ten
digit characters anchored at both ends (it has an eleventh, non-digit
character), yet `Phone` construction succeeds on it. -/
theorem phone_trailing_newline_accepted :
    Phone.init "1234567890\n" = .ok "1234567890\n" ∧
    ¬ (("1234567890\n" : String).data.length = 10 ∧
        ∀ c ∈ ("1234567890\n" : String).data, pyIsDigit c) := by
  exact ⟨by rfl, by decide⟩

/-!
## C4, C9, C10: phone mutation on a record
-/

/-- C4: `edit_phone` overwrites, without re-validating, each phone matching
`old` case-insensitively with the raw string `new`; consequently, whenever
some stored phone matched `old`, a subsequent `find_phone new` returns a
match (a stored value equal to `new` up to case), for arbitrary `new` —
including strings that are not valid ten-digit phone numbers. -/
theorem edit_phone_then_find_phone (r : Record) (old new : String)
    (h : ∃ p ∈ r.phones, pyLower p = pyLower old) :
    new ∈ (r.edit_phone old new).phones ∧
    ∃ q, (r.edit_phone old new).find_phone new = some q ∧ pyLower q = pyLower new := by
  obtain ⟨p, hp, hpl⟩ := h
  have hmem : new ∈ (r.edit_phone old new).phones := by
    unfold Record.edit_phone
    simp only [List.mem_map]
    exact ⟨p, hp, by rw [if_pos hpl]⟩
  refine ⟨hmem, ?_⟩
  have hsome : ((r.edit_phone old new).find_phone new).isSome := by
    unfold Record.find_phone
    rw [List.find?_isSome]
    exact ⟨new, hmem, by simp⟩
  obtain ⟨q, hq⟩ := Option.isSome_iff_exists.mp hsome
  refine ⟨q, hq, ?_⟩
  have := List.find?_some hq
  simpa using this

/-- Witness for the C4 theorem: editing `"1234567890"` to the malformed
string `"abc"` makes `find_phone "abc"` return a match. -/
theorem edit_phone_then_find_phone_witness :
    "abc" ∈ ((Record.mk "A" ["1234567890"] none).edit_phone "1234567890" "abc").phones ∧
    ∃ q, ((Record.mk "A" ["1234567890"] none).edit_phone "1234567890" "abc").find_phone "abc"
      = some q ∧ pyLower q = pyLower "abc" :=
  edit_phone_then_find_phone (Record.mk "A" ["1234567890"] none) "1234567890" "abc"
    ⟨"1234567890", by decide⟩

/-- C9: `add_phone` validates before appending, so on a string that fails
phone validation it raises `ValueError` and returns the record unchanged —
no partial entry is stored. -/
theorem add_phone_invalid_atomic (r : Record) (s : String)
    (h : validate_phone s = false) :
    r.add_phone s = (some PyErr.valueError, r) := by
  unfold Record.add_phone Phone.init
  rw [if_neg (by simp [h])]

/-- Witness for the C9 theorem at the malformed phone string `"abc"`. -/
theorem add_phone_invalid_atomic_witness :
    (Record.mk "A" ["1234567890"] none).add_phone "abc"
      = (some PyErr.valueError, Record.mk "A" ["1234567890"] none) :=
  add_phone_invalid_atomic (Record.mk "A" ["1234567890"] none) "abc" (by decide)

/-- C10: when no stored phone matches `old` case-insensitively, `edit_phone`
returns the record exactly unchanged (it is total, so it raises nothing);
in every case it leaves the record's name and birthday unchanged. -/
theorem edit_phone_frame (r : Record) (old new : String) :
    ((∀ p ∈ r.phones, pyLower p ≠ pyLower old) → r.edit_phone old new = r) ∧
    (r.edit_phone old new).name = r.name ∧
    (r.edit_phone old new).birthday = r.birthday := by
  refine ⟨fun h => ?_, rfl, rfl⟩
  have hmap : ∀ l : List String, (∀ p ∈ l, pyLower p ≠ pyLower old) →
      l.map (fun p => if pyLower p = pyLower old then new else p) = l := by
    intro l hl
    induction l with
    | nil => rfl
    | cons a t ih =>
      simp only [List.map_cons, if_neg (hl a (by simp)), List.cons.injEq, true_and]
      exact ih (fun p hp => hl p (by simp [hp]))
  unfold Record.edit_phone
  rw [hmap r.phones h]

/-- Witness for the C10 theorem: editing a phone absent from the record
leaves the record exactly as it was. -/
theorem edit_phone_frame_witness :
    (Record.mk "A" ["1234567890"] none).edit_phone "zzz" "0000000000"
      = Record.mk "A" ["1234567890"] none :=
  (edit_phone_frame (Record.mk "A" ["1234567890"] none) "zzz" "0000000000").1 (by decide)

/-!
## Lemmas about the dict model
-/

namespace AddressBook

theorem find?_key_none {d : List (String × Record)} {k : String}
    (h : d.any (fun e => decide (e.1 = k)) = false) :
    d.find? (fun e => decide (e.1 = k)) = none := by
  rw [List.find?_eq_none]
  simpa using (List.any_eq_false.mp h)

theorem find?_append_left_none {p : (String × Record) → Bool}
    {e : List (String × Record)} :
    ∀ d : List (String × Record), d.find? p = none →
      (d ++ e).find? p = e.find? p
  | [], _ => rfl
  | a :: t, h => by
    cases hp : p a
    · rw [List.find?_cons_of_neg _ (by simp [hp])] at h
      rw [List.cons_append, List.find?_cons_of_neg _ (by simp [hp])]
      exact find?_append_left_none t h
    · rw [List.find?_cons_of_pos _ hp] at h
      cases h

theorem find?_append_left_some {p : (String × Record) → Bool}
    {e : List (String × Record)} {x : String × Record} :
    ∀ d : List (String × Record), d.find? p = some x →
      (d ++ e).find? p = some x
  | [], h => by cases h
  | a :: t, h => by
    cases hp : p a
    · rw [List.find?_cons_of_neg _ (by simp [hp])] at h
      rw [List.cons_append, List.find?_cons_of_neg _ (by simp [hp])]
      exact find?_append_left_some t h
    · rw [List.find?_cons_of_pos _ hp] at h
      rw [List.cons_append, List.find?_cons_of_pos _ hp]
      exact h

theorem find?_overwrite {k : String} {v : Record} :
    ∀ d : List (String × Record), (∃ e ∈ d, e.1 = k) →
      (d.map (fun e => if e.1 = k then (k, v) else e)).find? (fun e => decide (e.1 = k))
        = some (k, v)
  | [], h => by simp at h
  | a :: t, h => by
    rw [List.map_cons]
    by_cases ha : a.1 = k
    · rw [if_pos ha, List.find?_cons_of_pos _ (by simp)]
    · rw [if_neg ha, List.find?_cons_of_neg _ (by simpa using ha)]
      apply find?_overwrite t
      rcases h with ⟨e, he, hek⟩
      rcases List.mem_cons.mp he with rfl | het
      · exact absurd hek ha
      · exact ⟨e, het, hek⟩

theorem find?_overwrite_ne {k m : String} {v : Record} (hmk : m ≠ k) :
    ∀ d : List (String × Record),
      (d.map (fun e => if e.1 = k then (k, v) else e)).find? (fun e => decide (e.1 = m))
        = d.find? (fun e => decide (e.1 = m))
  | [] => rfl
  | a :: t => by
    rw [List.map_cons]
    by_cases ha : a.1 = k
    · rw [if_pos ha,
        List.find?_cons_of_neg _ (by simpa using hmk.symm),
        List.find?_cons_of_neg _ (by simp only [decide_eq_true_eq, ha]; exact fun hh => hmk hh.symm)]
      exact find?_overwrite_ne hmk t
    · by_cases ham : a.1 = m
      · rw [if_neg ha, List.find?_cons_of_pos _ (by simpa using ham),
          List.find?_cons_of_pos _ (by simpa using ham)]
      · rw [if_neg ha, List.find?_cons_of_neg _ (by simpa using ham),
          List.find?_cons_of_neg _ (by simpa using ham)]
        exact find?_overwrite_ne hmk t

theorem keys_dictSet (d : List (String × Record)) (k : String) (v : Record) :
    (dictSet d k v).map Prod.fst =
      if d.any (fun e => decide (e.1 = k)) then d.map Prod.fst
      else d.map Prod.fst ++ [k] := by
  unfold dictSet
  split
  · rw [List.map_map]
    apply List.map_congr_left
    intro e _
    by_cases he : e.1 = k
    · simp [he]
    · simp [he]
  · rw [List.map_append]
    rfl

theorem find_add_record_self (b : AddressBook) (r : Record) :
    (b.add_record r).find r.name = some r := by
  unfold find add_record dictSet
  split
  · rename_i hany
    rw [find?_overwrite _ (by simpa using hany)]
    rfl
  · rename_i hany
    rw [find?_append_left_none _ (find?_key_none (Bool.eq_false_iff.mpr hany)),
      List.find?_cons_of_pos _ (by simp)]
    rfl

theorem find_add_record_ne (b : AddressBook) (r : Record) (m : String)
    (h : m ≠ r.name) :
    (b.add_record r).find m = b.find m := by
  unfold find add_record dictSet
  split
  · rw [find?_overwrite_ne h]
  · cases hf : b.data.find? (fun e => decide (e.1 = m)) with
    | none =>
      rw [find?_append_left_none _ hf, List.find?_cons_of_neg _ (by simpa using (Ne.symm h))]
      simp [hf]
    | some x =>
      rw [find?_append_left_some _ hf]

theorem keys_nodup_add_record (b : AddressBook) (r : Record)
    (h : (b.data.map Prod.fst).Nodup) :
    ((b.add_record r).data.map Prod.fst).Nodup := by
  show ((dictSet b.data r.name r).map Prod.fst).Nodup
  rw [keys_dictSet]
  split
  · exact h
  · rename_i hany
    refine List.Nodup.append h (List.nodup_singleton _) ?_
    intro x hx hx1
    rcases List.mem_singleton.mp hx1 with rfl
    rcases List.mem_map.mp hx with ⟨e, he, hek⟩
    have hall := List.any_eq_false.mp (Bool.eq_false_iff.mpr hany)
    exact absurd hek (by simpa using hall e he)

theorem mem_keys_add_record (b : AddressBook) (r : Record) :
    r.name ∈ (b.add_record r).data.map Prod.fst := by
  show r.name ∈ (dictSet b.data r.name r).map Prod.fst
  rw [keys_dictSet]
  split
  · rename_i hany
    rcases List.any_eq_true.mp hany with ⟨e, he, hek⟩
    exact List.mem_map.mpr ⟨e, he, of_decide_eq_true hek⟩
  · exact List.mem_append_right _ (List.mem_singleton.mpr rfl)

end AddressBook

/-!
## C6: adding under an existing name replaces the record
-/

/-- C6: starting from a book whose keys are distinct (every book reachable
from `AddressBook()` is), adding two records under the same name leaves
`find name` returning only the second record, exactly one entry for that
name, still-distinct keys, and every other name's lookup unchanged — the
first record is no longer reachable through the book. -/
theorem add_record_same_name_overwrites (b : AddressBook) (r₁ r₂ : Record)
    (n : String) (hb : (b.data.map Prod.fst).Nodup)
    (h₁ : r₁.name = n) (h₂ : r₂.name = n) :
    (((b.add_record r₁).add_record r₂).find n = some r₂) ∧
    ((((b.add_record r₁).add_record r₂).data.map Prod.fst).count n = 1) ∧
    ((((b.add_record r₁).add_record r₂).data.map Prod.fst).Nodup) ∧
    (∀ m, m ≠ n → ((b.add_record r₁).add_record r₂).find m = b.find m) := by
  have hnodup : ((((b.add_record r₁).add_record r₂)).data.map Prod.fst).Nodup :=
    AddressBook.keys_nodup_add_record _ _ (AddressBook.keys_nodup_add_record _ _ hb)
  have hmem : n ∈ (((b.add_record r₁).add_record r₂)).data.map Prod.fst := by
    have := AddressBook.mem_keys_add_record (b.add_record r₁) r₂
    rwa [h₂] at this
  refine ⟨?_, List.count_eq_one_of_mem hnodup hmem, hnodup, ?_⟩
  · have := AddressBook.find_add_record_self (b.add_record r₁) r₂
    rwa [h₂] at this
  · intro m hm
    rw [AddressBook.find_add_record_ne _ _ _ (by rw [h₂]; exact hm),
      AddressBook.find_add_record_ne _ _ _ (by rw [h₁]; exact hm)]

/-- Witness for the C6 theorem: overwriting `"Ann"` in an initially empty
book makes `find "Ann"` return the second record only. -/
theorem add_record_same_name_overwrites_witness :
    ((AddressBook.empty.add_record (Record.mk "Ann" ["1112223333"] none)).add_record
        (Record.mk "Ann" ["4445556666"] none)).find "Ann"
      = some (Record.mk "Ann" ["4445556666"] none) :=
  (add_record_same_name_overwrites AddressBook.empty
    (Record.mk "Ann" ["1112223333"] none) (Record.mk "Ann" ["4445556666"] none)
    "Ann" (by simp [AddressBook.empty]) rfl rfl).1

/-!
## C7: every record is keyed under its own name
-/

/-- Every record stored in the mapping is keyed under its own `name.value`. -/
def KeyedByName (b : AddressBook) : Prop :=
  ∀ e ∈ b.data, e.2.name = e.1

/-- C7: the keyed-by-own-name invariant holds for the empty book and is
preserved by `add_record`, `delete`, and by in-place mutation of a stored
record through any name-preserving record operation; all the record
mutations (`add_phone`, `remove_phone`, `edit_phone`, `add_birthday`)
preserve the name, and a successful `find n` returns a record named `n`. -/
theorem keyed_by_name_invariant :
    KeyedByName AddressBook.empty ∧
    (∀ b r, KeyedByName b → KeyedByName (b.add_record r)) ∧
    (∀ b n, KeyedByName b → KeyedByName (b.delete n)) ∧
    (∀ b n f, KeyedByName b → (∀ r, (f r).name = r.name) →
      KeyedByName (b.updateRecord n f)) ∧
    (∀ b n r, KeyedByName b → b.find n = some r → r.name = n) ∧
    (∀ r old new, (Record.edit_phone r old new).name = r.name) ∧
    (∀ r s, (Record.remove_phone r s).name = r.name) ∧
    (∀ r s, (Record.add_phone r s).2.name = r.name) ∧
    (∀ r s, (Record.add_birthday r s).2.name = r.name) := by
  refine ⟨?_, ?_, ?_, ?_, ?_, fun r old new => rfl, fun r s => rfl, ?_, ?_⟩
  · intro e he
    simp [AddressBook.empty] at he
  · intro b r hb e he
    unfold AddressBook.add_record AddressBook.dictSet at he
    split at he
    · rcases List.mem_map.mp he with ⟨a, ha, rfl⟩
      by_cases hak : a.1 = r.name
      · rw [if_pos hak]
      · rw [if_neg hak]
        exact hb a ha
    · rcases List.mem_append.mp he with ha | ha
      · exact hb e ha
      · rcases List.mem_singleton.mp ha with rfl
        rfl
  · intro b n hb e he
    unfold AddressBook.delete at he
    split at he
    · exact hb e (List.mem_of_mem_filter he)
    · exact hb e he
  · intro b n f hb hf e he
    rcases List.mem_map.mp he with ⟨a, ha, rfl⟩
    by_cases hak : a.1 = n
    · rw [if_pos hak]
      show (f a.2).name = a.1
      rw [hf a.2]
      exact hb a ha
    · rw [if_neg hak]
      exact hb a ha
  · intro b n r hb hf
    unfold AddressBook.find at hf
    cases hq : b.data.find? (fun e => decide (e.1 = n)) with
    | none => rw [hq] at hf; cases hf
    | some e =>
      rw [hq] at hf
      cases hf
      have h1 := hb e (List.mem_of_find?_eq_some hq)
      have h2' := List.find?_some (p := fun x : String × Record => decide (x.1 = n)) hq
      have h2 : e.1 = n := of_decide_eq_true h2'
      rw [h1, h2]
  · intro r s
    unfold Record.add_phone
    cases Phone.init s <;> rfl
  · intro r s
    unfold Record.add_birthday
    cases Birthday.init s <;> rfl

/-- Witness for the C7 theorem: the invariant holds after inserting a
record into the empty book. -/
theorem keyed_by_name_invariant_witness :
    KeyedByName (AddressBook.empty.add_record (Record.init "Ann")) :=
  keyed_by_name_invariant.2.1 AddressBook.empty (Record.init "Ann")
    keyed_by_name_invariant.1

/-!
## C8: delete is a no-op on absent names
-/

namespace AddressBook

theorem find?_filter_of_imp {p q : (String × Record) → Bool}
    (hpq : ∀ e, p e = true → q e = true) :
    ∀ d : List (String × Record), (d.filter q).find? p = d.find? p
  | [] => rfl
  | a :: t => by
    cases hp : p a
    · cases hq : q a
      · rw [List.filter_cons_of_neg (by simp [hq]), List.find?_cons_of_neg _ (by simp [hp])]
        exact find?_filter_of_imp hpq t
      · rw [List.filter_cons_of_pos (by simp [hq]), List.find?_cons_of_neg _ (by simp [hp]),
          List.find?_cons_of_neg _ (by simp [hp])]
        exact find?_filter_of_imp hpq t
    · cases hq : q a
      · exact absurd (hpq a hp) (by simp [hq])
      · rw [List.filter_cons_of_pos (by simp [hq]), List.find?_cons_of_pos _ hp,
          List.find?_cons_of_pos _ hp]

theorem length_filter_key_split (n : String) :
    ∀ d : List (String × Record),
      (d.filter (fun e => decide (¬ e.1 = n))).length
        + (d.filter (fun e => decide (e.1 = n))).length = d.length
  | [] => rfl
  | a :: t => by
    by_cases ha : a.1 = n
    · rw [List.filter_cons_of_neg (by simp [ha]), List.filter_cons_of_pos (by simp [ha])]
      have := length_filter_key_split n t
      simp only [List.length_cons]
      omega
    · rw [List.filter_cons_of_pos (by simp [ha]), List.filter_cons_of_neg (by simp [ha])]
      have := length_filter_key_split n t
      simp only [List.length_cons]
      omega

theorem count_keys_eq_length_filter (n : String) :
    ∀ d : List (String × Record),
      (d.map Prod.fst).count n = (d.filter (fun e => decide (e.1 = n))).length
  | [] => rfl
  | a :: t => by
    by_cases ha : a.1 = n
    · rw [List.map_cons, List.count_cons, List.filter_cons_of_pos (by simp [ha])]
      simp only [List.length_cons, ha, beq_self_eq_true, if_pos]
      rw [count_keys_eq_length_filter n t]
    · rw [List.map_cons, List.count_cons, List.filter_cons_of_neg (by simp [ha])]
      have hne : (a.1 == n) = false := by simp [ha]
      rw [hne]
      simp only [if_neg Bool.false_ne_true, Nat.add_zero]
      rw [count_keys_eq_length_filter n t]

end AddressBook

/-- C8: deleting a name that is not in the mapping raises nothing and
returns the book exactly unchanged (same entries, hence same size, key set
and records); deleting a present name (keys distinct, as in every reachable
book) removes exactly that one entry: the name no longer resolves, every
other name resolves as before, and the size drops by one. -/
theorem delete_absent_noop_present_removes (b : AddressBook) (n : String) :
    (b.contains n = false → b.delete n = b) ∧
    ((b.data.map Prod.fst).Nodup → b.contains n = true →
      ((b.delete n).find n = none ∧
        (∀ m, m ≠ n → (b.delete n).find m = b.find m) ∧
        (b.delete n).data.length + 1 = b.data.length)) := by
  constructor
  · intro h
    unfold AddressBook.delete
    rw [if_neg (fun hc => Bool.false_ne_true (h ▸ hc))]
  · intro hnodup hmem
    have hdel : (b.delete n).data = b.data.filter (fun e => decide (¬ e.1 = n)) := by
      unfold AddressBook.delete
      rw [if_pos hmem]
    refine ⟨?_, ?_, ?_⟩
    · unfold AddressBook.find
      have hnone : (b.data.filter (fun e => decide (¬ e.1 = n))).find?
          (fun e => decide (e.1 = n)) = none := by
        rw [List.find?_eq_none]
        intro e he
        simp only [decide_eq_true_eq]
        have hf := List.of_mem_filter (p := fun x : String × Record => decide (¬ x.1 = n)) he
        exact of_decide_eq_true hf
      rw [hdel, hnone]
      rfl
    · intro m hm
      unfold AddressBook.find
      rw [hdel, AddressBook.find?_filter_of_imp]
      intro e hp
      simp only [decide_eq_true_eq] at hp ⊢
      rw [hp]
      exact hm
    · rw [hdel]
      have hsplit := AddressBook.length_filter_key_split n b.data
      have hcount := AddressBook.count_keys_eq_length_filter n b.data
      have hone : (b.data.map Prod.fst).count n = 1 := by
        apply List.count_eq_one_of_mem hnodup
        unfold AddressBook.contains at hmem
        rcases List.any_eq_true.mp hmem with ⟨e, he, hek⟩
        exact List.mem_map.mpr ⟨e, he, of_decide_eq_true hek⟩
      omega

/-- Witness for the C8 theorem: deleting an absent name leaves a concrete
one-entry book unchanged, and deleting its present name empties it. -/
theorem delete_absent_noop_present_removes_witness :
    ((⟨[("Ann", Record.mk "Ann" [] none)]⟩ : AddressBook).delete "Bob"
        = (⟨[("Ann", Record.mk "Ann" [] none)]⟩ : AddressBook)) ∧
    ((⟨[("Ann", Record.mk "Ann" [] none)]⟩ : AddressBook).delete "Ann").find "Ann" = none :=
  ⟨(delete_absent_noop_present_removes ⟨[("Ann", Record.mk "Ann" [] none)]⟩ "Bob").1
      (by decide),
    ((delete_absent_noop_present_removes ⟨[("Ann", Record.mk "Ann" [] none)]⟩ "Ann").2
      (by simp) (by decide)).1⟩

/-!
## C5: the `add_birthday` handler and validation errors

In `main.py` the handler is defined as

```
@input_error
def add_birthday(args, address_book): ...
```

so the `ValueError` raised by `Birthday(birthday)` is caught by the same
`input_error` decorator that wraps the other handlers.
-/

/-- C5 counterexample: on the malformed birthday `"31.02.2024"` for a
present contact, the raw handler body raises `ValueError`, and the
decorated handler — the one the command loop calls — returns the recovered
user-facing message rather than letting the error propagate. -/
theorem add_birthday_error_caught_concrete :
    add_birthday_cmd ["Ann", "31.02.2024"] ⟨[("Ann", Record.init "Ann")]⟩
        = .error .valueError ∧
    add_birthday_wrapped ["Ann", "31.02.2024"] ⟨[("Ann", Record.init "Ann")]⟩
        = "Give me name and phone please." := by
  exact ⟨rfl, rfl⟩

/-- C5 (amended): for every present contact name and every birthday string
rejected by `strptime`, the `add_birthday` body raises `ValueError` and the
`input_error` decorator that wraps `add_birthday` (exactly as it wraps the
other handlers) recovers it into the user-facing message
`"Give me name and phone please."` — the validation error does not
propagate uncaught to the command layer. -/
theorem add_birthday_error_recovered (name bd : String) (book : AddressBook)
    (hmem : book.contains name = true) (hbad : strptimeDMY bd = none) :
    add_birthday_cmd [name, bd] book = .error .valueError ∧
    add_birthday_wrapped [name, bd] book = "Give me name and phone please." := by
  have hcmd : add_birthday_cmd [name, bd] book = .error .valueError := by
    have hstep : add_birthday_cmd [name, bd] book =
        if book.contains name = true then
          match Birthday.init bd with
          | Except.ok _ => Except.ok ("Birthday added for " ++ name ++ ".")
          | Except.error e => Except.error e
        else Except.ok ("Contact " ++ name ++ " not found.") := rfl
    rw [hstep, if_pos hmem]
    unfold Birthday.init
    rw [hbad]
  exact ⟨hcmd, by unfold add_birthday_wrapped; rw [hcmd]; rfl⟩

/-- Witness for the C5 theorem at a concrete book and malformed date. -/
theorem add_birthday_error_recovered_witness :
    add_birthday_cmd ["Bob", "99.99.9999"] ⟨[("Bob", Record.init "Bob")]⟩
        = .error .valueError ∧
    add_birthday_wrapped ["Bob", "99.99.9999"] ⟨[("Bob", Record.init "Bob")]⟩
        = "Give me name and phone please." :=
  add_birthday_error_recovered "Bob" "99.99.9999" ⟨[("Bob", Record.init "Bob")]⟩
    (by decide) (by decide)

/-!
## C3: birthday parsing

Character arithmetic, `splitDots` inversion, and the equivalence of the
`_strptime` groups with numeric range conditions.
-/

theorem char_eq_iff {a b : Char} : a = b ↔ a.toNat = b.toNat :=
  ⟨fun h => h ▸ rfl, char_eq_of_toNat_eq⟩

theorem char_le_iff {a b : Char} : a ≤ b ↔ a.toNat ≤ b.toNat := by
  rw [Char.le_def, UInt32.le_def]
  exact Iff.rfl

theorem toNat_c0 : ('0' : Char).toNat = 48 := rfl

theorem toNat_c1 : ('1' : Char).toNat = 49 := rfl

theorem toNat_c2 : ('2' : Char).toNat = 50 := rfl

theorem toNat_c3 : ('3' : Char).toNat = 51 := rfl

theorem toNat_c9 : ('9' : Char).toNat = 57 := rfl

theorem toNat_dot : ('.' : Char).toNat = 46 := rfl

theorem toNatDigits_one (c : Char) : toNatDigits [c] = c.toNat - 48 := by
  simp [toNatDigits]

theorem toNatDigits_two (c₁ c₂ : Char) :
    toNatDigits [c₁, c₂] = 10 * (c₁.toNat - 48) + (c₂.toNat - 48) := by
  simp [toNatDigits, List.foldl]

theorem pyIsDigit_ne_dot {c : Char} (h : pyIsDigit c = true) : c ≠ '.' := by
  rw [pyIsDigit_iff] at h
  rw [Ne, char_eq_iff, toNat_dot]
  omega

theorem toNat_sp : (' ' : Char).toNat = 32 := rfl

theorem pyIsDigit_ne_space {c : Char} (h : pyIsDigit c = true) : ¬ c = ' ' := by
  rw [pyIsDigit_iff] at h
  rw [char_eq_iff, toNat_sp]
  omega

theorem pyInt_of_digits {g : List Char} (h : ∀ c ∈ g, pyIsDigit c = true) :
    pyInt g = toNatDigits g := by
  cases g with
  | nil => rfl
  | cons c t =>
    show toNatDigits (List.dropWhile (fun x => decide (x = ' ')) (c :: t)) = _
    rw [List.dropWhile_cons,
      if_neg (by simpa using pyIsDigit_ne_space (h c (List.mem_cons_self c t)))]

theorem pyInt_space {c : Char} (h : ¬ c = ' ') : pyInt [' ', c] = c.toNat - 48 := by
  show toNatDigits (List.dropWhile (fun x => decide (x = ' ')) [' ', c]) = c.toNat - 48
  rw [List.dropWhile_cons, if_pos (by simp), List.dropWhile_cons, if_neg (by simpa using h)]
  exact toNatDigits_one c

theorem pyInt_no_space {c : Char} (t : List Char) (h : ¬ c = ' ') :
    pyInt (c :: t) = toNatDigits (c :: t) := by
  show toNatDigits (List.dropWhile (fun x => decide (x = ' ')) (c :: t)) = _
  rw [List.dropWhile_cons, if_neg (by simpa using h)]

theorem dayGroup_iff {g : List Char} :
    dayGroup g = true ↔
      ((((∀ c ∈ g, pyIsDigit c = true) ∧ 1 ≤ g.length ∧ g.length ≤ 2) ∨
          (∃ c, g = [' ', c] ∧ pyIsDigit c = true)) ∧
        1 ≤ pyInt g ∧ pyInt g ≤ 31) := by
  match g with
  | [] =>
    constructor
    · intro h
      exact absurd h (by simp [dayGroup])
    · rintro ⟨⟨-, h1, -⟩ | ⟨c, hc, -⟩, -, -⟩
      · exact absurd h1 (by simp)
      · exact absurd hc (by simp)
  | [c] =>
    by_cases hsp : c = ' '
    · subst hsp
      constructor
      · intro h
        exact absurd h (by decide)
      · rintro ⟨⟨hdig, -, -⟩ | ⟨c', hc', -⟩, -, -⟩
        · have := hdig ' ' (List.mem_singleton.mpr rfl)
          rw [pyIsDigit_iff, toNat_sp] at this
          omega
        · exact absurd hc' (by simp)
    · have h1 : pyInt [c] = c.toNat - 48 := by
        rw [pyInt_no_space [] hsp]
        exact toNatDigits_one c
      constructor
      · intro h
        simp only [dayGroup, Bool.and_eq_true, decide_eq_true_eq, char_le_iff,
          toNat_c1, toNat_c9] at h
        refine ⟨Or.inl ⟨?_, by simp, by simp⟩, ?_, ?_⟩
        · intro x hx
          rcases List.mem_singleton.mp hx with rfl
          rw [pyIsDigit_iff]
          omega
        · rw [h1]; omega
        · rw [h1]; omega
      · rintro ⟨⟨hdig, -, -⟩ | ⟨c', hc', -⟩, h2, h3⟩
        · have hd := hdig c (List.mem_singleton.mpr rfl)
          rw [pyIsDigit_iff] at hd
          rw [h1] at h2 h3
          simp only [dayGroup, Bool.and_eq_true, decide_eq_true_eq, char_le_iff,
            toNat_c1, toNat_c9]
          omega
        · exact absurd hc' (by simp)
  | [c₁, c₂] =>
    by_cases hsp : c₁ = ' '
    · subst hsp
      by_cases hsp2 : c₂ = ' '
      · subst hsp2
        constructor
        · intro h
          exact absurd h (by decide)
        · rintro ⟨⟨hdig, -, -⟩ | ⟨c', hc', hdig⟩, -, -⟩
          · have := hdig ' ' (List.mem_cons_self _ _)
            rw [pyIsDigit_iff, toNat_sp] at this
            omega
          · have hce : (' ' : Char) = c' := by simpa using hc'
            rw [← hce, pyIsDigit_iff, toNat_sp] at hdig
            omega
      · have hpy : pyInt [' ', c₂] = c₂.toNat - 48 := pyInt_space hsp2
        rw [hpy]
        have hL : dayGroup [' ', c₂] = true ↔ (49 ≤ c₂.toNat ∧ c₂.toNat ≤ 57) := by
          simp only [dayGroup, Bool.or_eq_true, Bool.and_eq_true, decide_eq_true_eq,
            char_eq_iff, char_le_iff, toNat_sp, toNat_c0, toNat_c1, toNat_c2,
            toNat_c3, toNat_c9, pyIsDigit_iff, true_and]
          omega
        rw [hL]
        constructor
        · rintro ⟨h2, h3⟩
          exact ⟨Or.inr ⟨c₂, rfl, pyIsDigit_iff.mpr ⟨by omega, by omega⟩⟩,
            by omega, by omega⟩
        · rintro ⟨⟨hdig, -, -⟩ | ⟨c', hc', hdig⟩, h2, h3⟩
          · have := hdig ' ' (List.mem_cons_self _ _)
            rw [pyIsDigit_iff, toNat_sp] at this
            omega
          · have hce : c₂ = c' := by simpa using hc'
            rw [← hce, pyIsDigit_iff] at hdig
            omega
    · have hpy : pyInt [c₁, c₂] = toNatDigits [c₁, c₂] := pyInt_no_space [c₂] hsp
      have hex : (∃ c, ([c₁, c₂] : List Char) = [' ', c] ∧ pyIsDigit c = true) ↔ False := by
        constructor
        · rintro ⟨c', hc', -⟩
          have h' : c₁ = ' ' ∧ c₂ = c' := by simpa using hc'
          exact hsp h'.1
        · exact False.elim
      rw [hpy, hex, or_false]
      rw [show (∀ c ∈ [c₁, c₂], pyIsDigit c = true) ↔
          (pyIsDigit c₁ = true ∧ pyIsDigit c₂ = true) by simp [List.forall_mem_cons]]
      have hns : ¬ c₁.toNat = 32 := fun hh => hsp (char_eq_of_toNat_eq (by rw [hh]; rfl))
      simp only [dayGroup, Bool.or_eq_true, Bool.and_eq_true, decide_eq_true_eq,
        char_eq_iff, char_le_iff, toNat_sp, toNat_c0, toNat_c1, toNat_c2, toNat_c3,
        toNat_c9, pyIsDigit_iff, List.length_cons, List.length_nil, toNatDigits_two]
      omega
  | c₁ :: c₂ :: c₃ :: t =>
    constructor
    · intro h
      exact absurd h (by simp [dayGroup])
    · rintro ⟨⟨-, -, h2⟩ | ⟨c', hc', -⟩, -, -⟩
      · exfalso
        simp only [List.length_cons] at h2
        omega
      · exact absurd hc' (by simp)

theorem monthGroup_iff {g : List Char} :
    monthGroup g = true ↔
      ((∀ c ∈ g, pyIsDigit c = true) ∧ 1 ≤ g.length ∧ g.length ≤ 2 ∧
        1 ≤ toNatDigits g ∧ toNatDigits g ≤ 12) := by
  match g with
  | [] => simp [monthGroup]
  | [c] =>
    simp only [monthGroup, Bool.and_eq_true, decide_eq_true_eq, char_le_iff,
      toNat_c1, toNat_c9, List.mem_singleton, forall_eq, pyIsDigit_iff,
      List.length_singleton, toNatDigits_one]
    omega
  | [c₁, c₂] =>
    rw [show (∀ c ∈ [c₁, c₂], pyIsDigit c = true) ↔
        (pyIsDigit c₁ = true ∧ pyIsDigit c₂ = true) by simp [List.forall_mem_cons]]
    simp only [monthGroup, Bool.or_eq_true, Bool.and_eq_true, decide_eq_true_eq,
      char_eq_iff, char_le_iff, toNat_c0, toNat_c1, toNat_c2, toNat_c9,
      pyIsDigit_iff, List.length_cons, List.length_nil, toNatDigits_two]
    omega
  | c₁ :: c₂ :: c₃ :: t =>
    constructor
    · intro h
      exact absurd h (by simp [monthGroup])
    · rintro ⟨-, -, h2, -, -⟩
      exfalso
      simp only [List.length_cons] at h2
      omega

/-- Join character groups with `'.'` separators: left inverse of `splitDots`. -/
def joinDots : List (List Char) → List Char
  | [] => []
  | [g] => g
  | g :: gs => g ++ '.' :: joinDots gs

theorem splitDots_ne_nil : ∀ l : List Char, splitDots l ≠ []
  | [] => by simp [splitDots]
  | c :: cs => by
    simp only [splitDots]
    split
    · simp
    · split
      · simp
      · simp

theorem joinDots_cons (g : List Char) (h : List Char) (t : List (List Char)) :
    joinDots (g :: h :: t) = g ++ '.' :: joinDots (h :: t) := rfl

theorem splitDots_join : ∀ l : List Char, joinDots (splitDots l) = l
  | [] => rfl
  | c :: cs => by
    have ih := splitDots_join cs
    simp only [splitDots]
    split
    · rename_i hc
      obtain ⟨g, gs, hgs⟩ : ∃ g gs, splitDots cs = g :: gs := by
        cases h : splitDots cs with
        | nil => exact absurd h (splitDots_ne_nil cs)
        | cons g gs => exact ⟨g, gs, rfl⟩
      rw [hgs, joinDots_cons, List.nil_append]
      rw [hgs] at ih
      rw [ih, hc]
    · rename_i hc
      cases h : splitDots cs with
      | nil => exact absurd h (splitDots_ne_nil cs)
      | cons g gs =>
        rw [h] at ih
        cases gs with
        | nil =>
          show joinDots [c :: g] = c :: cs
          show c :: g = c :: cs
          rw [List.cons_inj_right]
          exact ih
        | cons g₂ t =>
          show joinDots ((c :: g) :: g₂ :: t) = c :: cs
          rw [joinDots_cons]
          rw [joinDots_cons] at ih
          rw [List.cons_append, List.cons_inj_right]
          exact ih

theorem splitDots_groups_dot_free : ∀ l : List Char, ∀ g ∈ splitDots l, '.' ∉ g
  | [] => by
    intro g hg
    simp only [splitDots, List.mem_singleton] at hg
    simp [hg]
  | c :: cs => by
    have ih := splitDots_groups_dot_free cs
    intro g hg
    simp only [splitDots] at hg
    split at hg
    · rcases List.mem_cons.mp hg with rfl | hmem
      · simp
      · exact ih g hmem
    · rename_i hc
      cases h : splitDots cs with
      | nil => exact absurd h (splitDots_ne_nil cs)
      | cons g₁ gs =>
        rw [h] at hg
        rcases List.mem_cons.mp hg with rfl | hmem
        · intro hdot
          rcases List.mem_cons.mp hdot with heq | hmem₁
          · exact hc heq.symm
          · exact ih g₁ (h ▸ List.mem_cons_self g₁ gs) hmem₁
        · exact ih g (h ▸ List.mem_cons.mpr (Or.inr hmem))

theorem splitDots_of_dot_free : ∀ l : List Char, '.' ∉ l → splitDots l = [l]
  | [], _ => rfl
  | c :: cs, h => by
    have hc : ¬ c = '.' := fun hh => h (hh ▸ List.mem_cons_self c cs)
    simp only [splitDots, if_neg hc]
    rw [splitDots_of_dot_free cs (fun hm => h (List.mem_cons.mpr (Or.inr hm)))]

theorem splitDots_append : ∀ a r : List Char, '.' ∉ a →
    splitDots (a ++ '.' :: r) = a :: splitDots r
  | [], r, _ => by
    simp [splitDots]
  | c :: a, r, h => by
    have hc : ¬ c = '.' := fun hh => h (hh ▸ List.mem_cons_self c a)
    rw [List.cons_append]
    simp only [splitDots, if_neg hc]
    rw [splitDots_append a r (fun hm => h (List.mem_cons.mpr (Or.inr hm)))]

theorem daysInMonth_pos (y m : Nat) : 1 ≤ daysInMonth y m := by
  unfold daysInMonth
  split
  · split <;> omega
  · split <;> omega

theorem daysInMonth_le_31 (y m : Nat) : daysInMonth y m ≤ 31 := by
  unfold daysInMonth
  split
  · split <;> omega
  · split <;> omega

theorem yearGroup_iff {g : List Char} :
    yearGroup g = true ↔ (g.length = 4 ∧ ∀ c ∈ g, pyIsDigit c = true) := by
  simp [yearGroup, List.all_eq_true]

/-- C3 (amended): on ASCII input, `Birthday` construction succeeds iff the
string is `day.month.year` where the day group is one or two digits or a
space followed by a nonzero digit (CPython `%d` is
`3[0-1]|[1-2]\d|0[1-9]|[1-9]| [1-9]`, so unpadded `"1"` and space-padded
`" 1"` days are accepted), the month group is one or two digits, and the
year is exactly four digits, together denoting a real proleptic-Gregorian
calendar date with year at least 1 (`pyInt` is `int()`, which ignores the
leading space).  Hence `"1.1.2000"` is accepted while `"31.02.2024"` (no
such calendar day) and `"00.01.2000"` (day zero) are rejected.  On success
the stored value is the original string unchanged. -/
theorem birthday_construction_characterization (s : String)
    (_hascii : ∀ c ∈ s.data, c.toNat < 128) :
    ((∃ b, Birthday.init s = .ok b) ↔
      ∃ dd mm yyyy : List Char,
        s.data = dd ++ '.' :: (mm ++ '.' :: yyyy) ∧
        (((∀ c ∈ dd, pyIsDigit c = true) ∧ 1 ≤ dd.length ∧ dd.length ≤ 2) ∨
          (∃ c, dd = [' ', c] ∧ pyIsDigit c = true)) ∧
        (∀ c ∈ mm, pyIsDigit c = true) ∧ (∀ c ∈ yyyy, pyIsDigit c = true) ∧
        1 ≤ mm.length ∧ mm.length ≤ 2 ∧ yyyy.length = 4 ∧
        1 ≤ toNatDigits yyyy ∧
        1 ≤ toNatDigits mm ∧ toNatDigits mm ≤ 12 ∧
        1 ≤ pyInt dd ∧
        pyInt dd ≤ daysInMonth (toNatDigits yyyy) (toNatDigits mm)) ∧
    (∀ b, Birthday.init s = .ok b → b = s) := by
  refine ⟨⟨?_, ?_⟩, ?_⟩
  · rintro ⟨b, hb⟩
    unfold Birthday.init at hb
    cases hp : strptimeDMY s with
    | none => rw [hp] at hb; cases hb
    | some v =>
      clear hb
      unfold strptimeDMY at hp
      split at hp
      · rename_i a bb c heq
        split at hp
        · rename_i hgroups
          split at hp
          · rename_i hcal
            rw [Bool.and_eq_true, Bool.and_eq_true] at hgroups
            obtain ⟨⟨hday, hmon⟩, hyear⟩ := hgroups
            obtain ⟨hd_shape, hd_lo, -⟩ := dayGroup_iff.mp hday
            obtain ⟨hm_dig, hm_len1, hm_len2, hm_lo, hm_hi⟩ := monthGroup_iff.mp hmon
            obtain ⟨hy_len, hy_dig⟩ := yearGroup_iff.mp hyear
            have hpyc : pyInt c = toNatDigits c := pyInt_of_digits hy_dig
            have hpyb : pyInt bb = toNatDigits bb := pyInt_of_digits hm_dig
            refine ⟨a, bb, c, ?_, hd_shape, hm_dig, hy_dig,
              hm_len1, hm_len2, hy_len,
              by rw [← hpyc]; exact hcal.1, hm_lo, hm_hi, hd_lo,
              by rw [← hpyc, ← hpyb]; exact hcal.2⟩
            have hjoin := splitDots_join s.data
            rw [heq] at hjoin
            exact hjoin.symm
          · cases hp
        · cases hp
      · cases hp
  · rintro ⟨dd, mm, yyyy, hs, hd_shape, hm_dig, hy_dig,
      hm_len1, hm_len2, hy_len, hy_lo, hm_lo, hm_hi, hd_lo, hd_cal⟩
    have hdd_free : '.' ∉ dd := by
      rcases hd_shape with ⟨hdig, -, -⟩ | ⟨c, rfl, hdig⟩
      · exact fun hdot => pyIsDigit_ne_dot (hdig '.' hdot) rfl
      · intro hdot
        rcases List.mem_cons.mp hdot with h1 | h1
        · exact absurd (char_eq_iff.mp h1) (by decide)
        · exact pyIsDigit_ne_dot hdig (List.mem_singleton.mp h1).symm
    have hmm_free : '.' ∉ mm := fun hdot => pyIsDigit_ne_dot (hm_dig '.' hdot) rfl
    have hyy_free : '.' ∉ yyyy := fun hdot => pyIsDigit_ne_dot (hy_dig '.' hdot) rfl
    have hsplit : splitDots s.data = [dd, mm, yyyy] := by
      rw [hs, splitDots_append dd _ hdd_free, splitDots_append mm _ hmm_free,
        splitDots_of_dot_free yyyy hyy_free]
    have hday : dayGroup dd = true :=
      dayGroup_iff.mpr ⟨hd_shape, hd_lo,
        le_trans hd_cal (daysInMonth_le_31 _ _)⟩
    have hmon : monthGroup mm = true :=
      monthGroup_iff.mpr ⟨hm_dig, hm_len1, hm_len2, hm_lo, hm_hi⟩
    have hyear : yearGroup yyyy = true := yearGroup_iff.mpr ⟨hy_len, hy_dig⟩
    have hpym : pyInt mm = toNatDigits mm := pyInt_of_digits hm_dig
    have hpyy : pyInt yyyy = toNatDigits yyyy := pyInt_of_digits hy_dig
    have hstrp : strptimeDMY s = some (pyInt dd, pyInt mm, pyInt yyyy) := by
      unfold strptimeDMY
      rw [hsplit]
      show (if (dayGroup dd && monthGroup mm && yearGroup yyyy) = true then
          if 1 ≤ pyInt yyyy ∧ pyInt dd ≤ daysInMonth (pyInt yyyy) (pyInt mm)
          then some (pyInt dd, pyInt mm, pyInt yyyy)
          else none
        else none)
        = some (pyInt dd, pyInt mm, pyInt yyyy)
      rw [if_pos (by rw [Bool.and_eq_true, Bool.and_eq_true]; exact ⟨⟨hday, hmon⟩, hyear⟩)]
      rw [if_pos ⟨by rw [hpyy]; exact hy_lo, by rw [hpyy, hpym]; exact hd_cal⟩]
    refine ⟨s, ?_⟩
    unfold Birthday.init
    rw [hstrp]
  · intro b hb
    unfold Birthday.init at hb
    split at hb
    · cases hb
      rfl
    · cases hb

/-- Witness for the C3 theorem: the hypotheses hold at `"17.03.1990"`, and
the round-trip conclusion applies there. -/
theorem birthday_construction_characterization_witness :
    (∀ c ∈ ("17.03.1990" : String).data, c.toNat < 128) ∧
    (∀ b, Birthday.init "17.03.1990" = .ok b → b = "17.03.1990") :=
  ⟨by decide, (birthday_construction_characterization "17.03.1990" (by decide)).2⟩

/-- C3 counterexample: the claim's fixed-width pattern (two-digit day,
two-digit month, four-digit year) admits only ten-character strings, yet
`Birthday` construction succeeds on the eight-character `"1.1.2000"` —
CPython's `strptime` `%d` and `%m` accept unpadded one-digit values. -/
theorem birthday_unpadded_accepted :
    (∃ b, Birthday.init "1.1.2000" = .ok b) ∧
    ("1.1.2000" : String).data.length ≠ 10 :=
  ⟨⟨"1.1.2000", rfl⟩, by decide⟩

/-!
## C1: the seven-day birthday window

Day-of-year arithmetic for the calendar model, used to show that the
`"DD.MM"` renderings of `today + 1 .. today + 7` never collide with the
rendering of `today` itself or of `today + 8`.
-/

/-- Cumulative number of days in the months strictly before month `m`. -/
def daysBefore (y : Nat) : Nat → Nat
  | 0 => 0
  | m + 1 => daysBefore y m + (if m = 0 then 0 else daysInMonth y m)

/-- Ordinal day-of-year of a date (January 1 is day 1). -/
def doy (d : Date) : Nat :=
  daysBefore d.year d.month + d.day

/-- Number of days in a calendar year. -/
def yearLen (y : Nat) : Nat :=
  if isLeap y then 366 else 365

theorem daysBefore_succ (y m : Nat) (h : 1 ≤ m) :
    daysBefore y (m + 1) = daysBefore y m + daysInMonth y m := by
  rw [daysBefore, if_neg (by omega)]

theorem doy_dec31 (y : Nat) : daysBefore y 12 + daysInMonth y 12 = yearLen y := by
  cases h : isLeap y <;> simp [daysBefore, daysInMonth, yearLen, h]

theorem yearLen_ge (y : Nat) : 365 ≤ yearLen y := by
  unfold yearLen
  split <;> omega

theorem daysBefore_compare (y₁ y₂ m : Nat) (h : m ≤ 13) :
    daysBefore y₁ m ≤ daysBefore y₂ m + 1 := by
  interval_cases m <;> cases h₁ : isLeap y₁ <;> cases h₂ : isLeap y₂ <;>
    simp [daysBefore, daysInMonth, h₁, h₂]

theorem doy_le_yearLen (d : Date) (h : d.Valid) : doy d ≤ yearLen d.year := by
  obtain ⟨y, m, day⟩ := d
  obtain ⟨hm1, hm2, hd1, hd2⟩ := h
  simp only [doy]
  interval_cases m <;> cases hl : isLeap y <;>
    (simp [daysInMonth, hl] at hd2; simp [daysBefore, daysInMonth, yearLen, hl]; omega)

theorem nextDay_cases (d : Date) (h : d.Valid) :
    ((nextDay d).Valid ∧ (nextDay d).year = d.year ∧ doy (nextDay d) = doy d + 1) ∨
    ((nextDay d) = ⟨d.year + 1, 1, 1⟩ ∧ doy d = yearLen d.year) := by
  obtain ⟨hm1, hm2, hd1, hd2⟩ := h
  unfold nextDay
  split
  · rename_i hlt
    left
    refine ⟨⟨hm1, hm2, show 1 ≤ d.day + 1 by omega, hlt⟩, rfl, ?_⟩
    simp only [doy]
    omega
  · split
    · rename_i hge hmlt
      left
      have hdeq : d.day = daysInMonth d.year d.month := by omega
      refine ⟨⟨show 1 ≤ d.month + 1 by omega, show d.month + 1 ≤ 12 by omega,
        le_refl 1, daysInMonth_pos _ _⟩, rfl, ?_⟩
      simp only [doy]
      rw [daysBefore_succ _ _ hm1]
      omega
    · rename_i hge hmge
      right
      have hm12 : d.month = 12 := by omega
      have hdeq : d.day = daysInMonth d.year d.month := by omega
      refine ⟨rfl, ?_⟩
      simp only [doy]
      rw [hm12] at hdeq ⊢
      rw [hdeq]
      exact doy_dec31 d.year

theorem addDays_add (d : Date) (a : Nat) :
    ∀ b : Nat, addDays d (a + b) = addDays (addDays d a) b
  | 0 => rfl
  | b + 1 => by
    show nextDay (addDays d (a + b)) = nextDay (addDays (addDays d a) b)
    rw [addDays_add d a b]

theorem addDays_spec (d : Date) (hd : d.Valid) :
    ∀ k : Nat, k ≤ 363 →
      (addDays d k).Valid ∧
      (((addDays d k).year = d.year ∧ doy (addDays d k) = doy d + k) ∨
       ((addDays d k).year = d.year + 1 ∧
         doy (addDays d k) + yearLen d.year = doy d + k))
  | 0, _ => ⟨hd, Or.inl ⟨rfl, rfl⟩⟩
  | k + 1, hk => by
    obtain ⟨hv, hcase⟩ := addDays_spec d hd k (by omega)
    have hnext := nextDay_cases (addDays d k) hv
    rw [show addDays d (k + 1) = nextDay (addDays d k) from rfl]
    rcases hcase with ⟨hy, hdoy⟩ | ⟨hy, hdoy⟩
    · rcases hnext with ⟨hv', hy', hdoy'⟩ | ⟨heq, hfull⟩
      · exact ⟨hv', Or.inl ⟨by rw [hy', hy], by omega⟩⟩
      · refine ⟨?_, Or.inr ⟨?_, ?_⟩⟩
        · rw [heq]
          exact ⟨le_refl 1, show (1 : Nat) ≤ 12 by omega, le_refl 1, daysInMonth_pos _ _⟩
        · rw [heq]
          show (addDays d k).year + 1 = d.year + 1
          rw [hy]
        · rw [heq]
          have h1 : doy (⟨(addDays d k).year + 1, 1, 1⟩ : Date) = 1 := by
            simp [doy, daysBefore]
          rw [h1]
          rw [hy] at hfull
          omega
    · rcases hnext with ⟨hv', hy', hdoy'⟩ | ⟨heq, hfull⟩
      · exact ⟨hv', Or.inr ⟨by rw [hy', hy], by rw [hdoy']; omega⟩⟩
      · exfalso
        have h1 := yearLen_ge (addDays d k).year
        have h2 := doy_le_yearLen d hd
        omega

theorem digitChar_inj :
    ∀ a < 10, ∀ b < 10, digitChar a = digitChar b → a = b := by decide

theorem fmtDDMM_eq (d₁ d₂ : Date) (h₁ : d₁.Valid) (h₂ : d₂.Valid)
    (h : fmtDDMM d₁ = fmtDDMM d₂) : d₁.day = d₂.day ∧ d₁.month = d₂.month := by
  obtain ⟨hm1, hm2, hd1, hd2⟩ := h₁
  obtain ⟨hm1', hm2', hd1', hd2'⟩ := h₂
  have hday31 : d₁.day ≤ 31 := le_trans hd2 (daysInMonth_le_31 _ _)
  have hday31' : d₂.day ≤ 31 := le_trans hd2' (daysInMonth_le_31 _ _)
  unfold fmtDDMM at h
  injection h with h
  simp only [List.cons.injEq, and_true] at h
  obtain ⟨e1, e2, -, e3, e4⟩ := h
  constructor
  · have q1 := digitChar_inj _ (by omega) _ (by omega) e1
    have q2 := digitChar_inj _ (by omega) _ (by omega) e2
    omega
  · have q3 := digitChar_inj _ (by omega) _ (by omega) e3
    have q4 := digitChar_inj _ (by omega) _ (by omega) e4
    omega

theorem fmt_addDays_ne (d : Date) (hd : d.Valid) (k : Nat)
    (hk1 : 1 ≤ k) (hk2 : k ≤ 363) :
    fmtDDMM (addDays d k) ≠ fmtDDMM d := by
  intro heq
  obtain ⟨hv, hcase⟩ := addDays_spec d hd k hk2
  obtain ⟨hday, hmonth⟩ := fmtDDMM_eq _ _ hv hd heq
  rcases hcase with ⟨hy, hdoy⟩ | ⟨hy, hdoy⟩
  · have hde : doy (addDays d k) = doy d := by
      unfold doy
      rw [hday, hmonth, hy]
    omega
  · have hm2 : d.month ≤ 12 := hd.2.1
    have hc := daysBefore_compare d.year (addDays d k).year d.month (by omega)
    have hdoyE : doy (addDays d k) = daysBefore (addDays d k).year d.month + d.day := by
      unfold doy
      rw [hday, hmonth]
    have hdoyd : doy d = daysBefore d.year d.month + d.day := rfl
    have hyl := yearLen_ge d.year
    omega

theorem mem_upcomingDates {today : Date} {x : String} :
    x ∈ AddressBook.upcomingDates today ↔
      ∃ i, 1 ≤ i ∧ i ≤ 7 ∧ x = fmtDDMM (addDays today i) := by
  unfold AddressBook.upcomingDates
  simp only [List.mem_map, List.mem_range'_1]
  constructor
  · rintro ⟨i, hi, rfl⟩
    exact ⟨i, by omega, by omega, rfl⟩
  · rintro ⟨i, h1, h7, rfl⟩
    exact ⟨i, by omega, rfl⟩

theorem fmt_today_not_upcoming (today : Date) (h : today.Valid) :
    fmtDDMM today ∉ AddressBook.upcomingDates today := by
  rw [mem_upcomingDates]
  rintro ⟨i, hi1, hi7, heq⟩
  exact fmt_addDays_ne today h i hi1 (by omega) heq.symm

theorem fmt_plus8_not_upcoming (today : Date) (h : today.Valid) :
    fmtDDMM (addDays today 8) ∉ AddressBook.upcomingDates today := by
  rw [mem_upcomingDates]
  rintro ⟨i, hi1, hi7, heq⟩
  have hvi : (addDays today i).Valid := (addDays_spec today h i (by omega)).1
  have hsplit : addDays today 8 = addDays (addDays today i) (8 - i) := by
    rw [← addDays_add]
    congr 1
    omega
  rw [hsplit] at heq
  exact fmt_addDays_ne (addDays today i) hvi (8 - i) (by omega) (by omega) heq

/-- C1: with `datetime.now()` modelled as the valid date `today`,
`get_upcoming_birthdays` returns, as a sublist of the values in iteration
(= insertion) order, exactly the records whose birthday is set and whose
stored string's first five characters (`"DD.MM"`) textually equal the
`"DD.MM"` rendering of one of the seven calendar days at offsets +1..+7
from `today`; in particular a record whose birthday prefix renders `today`
itself is excluded, and one rendering offset +8 is excluded. -/
theorem get_upcoming_birthdays_characterization (b : AddressBook) (today : Date)
    (h : today.Valid) :
    (b.get_upcoming_birthdays today).Sublist b.values ∧
    (∀ r, r ∈ b.get_upcoming_birthdays today ↔
      (r ∈ b.values ∧ ∃ bd, r.birthday = some bd ∧
        ∃ i, 1 ≤ i ∧ i ≤ 7 ∧ strTake bd 5 = fmtDDMM (addDays today i))) ∧
    (b.get_upcoming_birthdays today = b.values.filter (fun r =>
      match r.birthday with
      | none => false
      | some bd => decide (∃ i ∈ (Finset.Icc 1 7 : Finset Nat),
          strTake bd 5 = fmtDDMM (addDays today i)))) ∧
    (∀ r bd, r.birthday = some bd → strTake bd 5 = fmtDDMM today →
      r ∉ b.get_upcoming_birthdays today) ∧
    (∀ r bd, r.birthday = some bd → strTake bd 5 = fmtDDMM (addDays today 8) →
      r ∉ b.get_upcoming_birthdays today) := by
  have hpred : ∀ r : Record,
      ((match r.birthday with
        | none => false
        | some bd => decide (strTake bd 5 ∈ AddressBook.upcomingDates today)) = true)
      ↔ (∃ bd, r.birthday = some bd ∧
          ∃ i, 1 ≤ i ∧ i ≤ 7 ∧ strTake bd 5 = fmtDDMM (addDays today i)) := by
    intro r
    cases hb : r.birthday with
    | none => simp
    | some bd =>
      simp only [decide_eq_true_eq, mem_upcomingDates]
      constructor
      · rintro ⟨i, h1, h7, heq⟩
        exact ⟨bd, rfl, i, h1, h7, heq⟩
      · rintro ⟨bd', hbd', i, h1, h7, heq⟩
        rcases Option.some.inj hbd' with rfl
        exact ⟨i, h1, h7, heq⟩
  refine ⟨List.filter_sublist _, ?_, ?_, ?_, ?_⟩
  · intro r
    unfold AddressBook.get_upcoming_birthdays
    rw [List.mem_filter, hpred r]
  · unfold AddressBook.get_upcoming_birthdays
    apply List.filter_congr
    intro r _
    cases hb : r.birthday with
    | none => rfl
    | some bd =>
      show decide (strTake bd 5 ∈ AddressBook.upcomingDates today)
        = decide (∃ i ∈ (Finset.Icc 1 7 : Finset Nat),
            strTake bd 5 = fmtDDMM (addDays today i))
      rw [decide_eq_decide, mem_upcomingDates]
      constructor
      · rintro ⟨i, h1, h7, heq⟩
        exact ⟨i, Finset.mem_Icc.mpr ⟨h1, h7⟩, heq⟩
      · rintro ⟨i, hi, heq⟩
        obtain ⟨h1, h7⟩ := Finset.mem_Icc.mp hi
        exact ⟨i, h1, h7, heq⟩
  · intro r bd hbd hfmt hmem
    unfold AddressBook.get_upcoming_birthdays at hmem
    rw [List.mem_filter, hbd] at hmem
    have hin : strTake bd 5 ∈ AddressBook.upcomingDates today :=
      of_decide_eq_true hmem.2
    rw [hfmt] at hin
    exact fmt_today_not_upcoming today h hin
  · intro r bd hbd hfmt hmem
    unfold AddressBook.get_upcoming_birthdays at hmem
    rw [List.mem_filter, hbd] at hmem
    have hin : strTake bd 5 ∈ AddressBook.upcomingDates today :=
      of_decide_eq_true hmem.2
    rw [hfmt] at hin
    exact fmt_plus8_not_upcoming today h hin

/-- Witness for the C1 theorem at the spec's own example: with
`today = 01.01.2024`, a record with birthday `01.01.1990` (today itself)
is excluded from the upcoming list of a concrete three-record book. -/
theorem get_upcoming_birthdays_characterization_witness :
    (Record.mk "B" [] (some "01.01.1990")) ∉
      AddressBook.get_upcoming_birthdays
        ⟨[("A", Record.mk "A" [] (some "05.01.1990")),
          ("B", Record.mk "B" [] (some "01.01.1990")),
          ("C", Record.mk "C" [] (some "09.01.1990"))]⟩ ⟨2024, 1, 1⟩ :=
  (get_upcoming_birthdays_characterization
    ⟨[("A", Record.mk "A" [] (some "05.01.1990")),
      ("B", Record.mk "B" [] (some "01.01.1990")),
      ("C", Record.mk "C" [] (some "09.01.1990"))]⟩ ⟨2024, 1, 1⟩ (by decide)).2.2.2.1
    (Record.mk "B" [] (some "01.01.1990")) "01.01.1990" rfl (by decide)

end ContactBook
